import Mathlib

/-!
Shallow embedding of the SwAV training script (`main_swav.py`) and proofs
about the claims of its specification.

Conventions of the embedding:
* PyTorch tensors of rank 2 are modelled either as `Fin k → Fin b → ℚ`
  (the Sinkhorn solver, where the algebra matters) or as `List (List ℚ)`
  (the memory queue, where slot positions and row counts matter).
* Machine floats are modelled by exact rationals; the transcendental
  functions `exp`, `log` and `cos` that the script applies entrywise are
  abstracted as function parameters, since the claims under study are
  invariant under the choice of the entrywise map.
* `dist.all_reduce` (sum over the process group) is modelled by summing a
  worker-indexed family; the solver state carries a counter of executed
  reductions so that "number of collective calls" is observable.
* In-place tensor mutation is modelled by explicit state passing: the
  Sinkhorn solver returns both the final content of the caller's buffer
  and the freshly allocated result.
-/

namespace Swav

/-! ## Startup queue-length adjustment (`main`, line 301)

`args.queue_length -= args.queue_length % (args.batch_size * args.world_size)`
-/

/-- The queue-length adjustment the script performs at startup. -/
def adjustQueueLength (queueLength batchSize worldSize : ℕ) : ℕ :=
  queueLength - queueLength % (batchSize * worldSize)

/-! ## Memory-queue update (`train`, lines 394–396)

`queue[i, bs:] = queue[i, :-bs].clone()` followed by
`queue[i, :bs] = embedding[crop_id * bs : (crop_id + 1) * bs]`:
rows `0..L-bs-1` are moved to positions `bs..L-1`, and the current batch is
written into positions `0..bs-1`.  A queue is a list of `L` feature rows.
-/

/-- One per-iteration, per-assign-crop queue write: the previous content is
shifted toward higher indices (the last `bs` rows fall off) and the `bs`
embedding rows of the current batch are written at the front. -/
def queueUpdate (bs : ℕ) (emb q : List (List ℚ)) : List (List ℚ) :=
  emb ++ q.take (q.length - bs)

/-- Iterated queue writes: the batches are written in chronological order
(head of the list first). -/
def queueWrites (bs : ℕ) (batches : List (List (List ℚ))) (q0 : List (List ℚ)) :
    List (List ℚ) :=
  batches.foldl (fun q b => queueUpdate bs b q) q0

/-! ## Sinkhorn-Knopp solver (`distributed_sinkhorn`, lines 445–464)

The solver runs on the worker-indexed family of local score matrices
`Q : Fin W → Fin K → Fin B → ℚ` (`K` prototypes, `B` local columns per
worker).  `dist.all_reduce` of a tensor is modelled by summing the family
over the worker index; locally computed quantities do not sum over it.
The returned `SinkhornState` holds the final content of the caller's
buffer (the tensor mutated in place), the last reduced row sums, and the
number of `all_reduce` calls executed.
-/

/-- `torch.sum(Q)` followed by `dist.all_reduce`. -/
def globalSum (W K B : ℕ) (Q : Fin W → Fin K → Fin B → ℚ) : ℚ :=
  ∑ w, ∑ i, ∑ j, Q w i j

/-- `torch.sum(Q, dim=1)` followed by `dist.all_reduce`. -/
def globalRowSum (W K B : ℕ) (Q : Fin W → Fin K → Fin B → ℚ) (i : Fin K) : ℚ :=
  ∑ w, ∑ j, Q w i j

/-- `torch.sum(Q, dim=0)`, computed locally on worker `w`, never reduced. -/
def localColSum (W K B : ℕ) (Q : Fin W → Fin K → Fin B → ℚ) (w : Fin W)
    (j : Fin B) : ℚ :=
  ∑ i, Q w i j

/-- State threaded through `distributed_sinkhorn`: the in-place buffer `Q`,
the reduced row sums `curr_sum`, and the count of `all_reduce` calls. -/
structure SinkhornState (W K B : ℕ) where
  Q : Fin W → Fin K → Fin B → ℚ
  currSum : Fin K → ℚ
  reduceCount : ℕ

/-- `Q *= (r / u).unsqueeze(1)`: in-place row rescaling against the
previously reduced row sums `u`. -/
def rowScaled (W K B : ℕ) (r : Fin K → ℚ) (u : Fin K → ℚ)
    (Q : Fin W → Fin K → Fin B → ℚ) : Fin W → Fin K → Fin B → ℚ :=
  fun w i j => Q w i j * (r i / u i)

/-- `Q *= (c / torch.sum(Q, dim=0)).unsqueeze(0)`: in-place column
rescaling against the locally computed column sums. -/
def colScaled (W K B : ℕ) (c : Fin B → ℚ)
    (Q : Fin W → Fin K → Fin B → ℚ) : Fin W → Fin K → Fin B → ℚ :=
  fun w i j => Q w i j * (c j / localColSum W K B Q w j)

/-- The `for it in range(nmb_iters)` loop of `distributed_sinkhorn`:
`u = curr_sum; Q *= (r / u).unsqueeze(1); Q *= (c / sum(Q, dim=0)).unsqueeze(0);
curr_sum = sum(Q, dim=1); dist.all_reduce(curr_sum)`. -/
def sinkhornLoop (W K B : ℕ) (r : Fin K → ℚ) (c : Fin B → ℚ) :
    ℕ → SinkhornState W K B → SinkhornState W K B
  | 0, st => st
  | n + 1, st =>
    sinkhornLoop W K B r c n
      ⟨colScaled W K B c (rowScaled W K B r st.currSum st.Q),
        fun i => globalRowSum W K B
          (colScaled W K B c (rowScaled W K B r st.currSum st.Q)) i,
        st.reduceCount + 1⟩

/-- `distributed_sinkhorn(Q, nmb_iters)`: normalize by the globally reduced
total sum, run the loop with `r = 1/K` and `c = 1/(world_size * B)`, and
return the final buffer state together with the freshly allocated result
`(Q / torch.sum(Q, dim=0, keepdim=True)).t()` of each worker. -/
def distributedSinkhorn (W K B : ℕ) (Qs : Fin W → Fin K → Fin B → ℚ)
    (nmbIters : ℕ) : SinkhornState W K B × (Fin W → Fin B → Fin K → ℚ) :=
  let sumQ := globalSum W K B Qs
  let Q0 : Fin W → Fin K → Fin B → ℚ := fun w i j => Qs w i j / sumQ
  let r : Fin K → ℚ := fun _ => 1 / (K : ℚ)
  let c : Fin B → ℚ := fun _ => 1 / ((W : ℚ) * (B : ℚ))
  let st := sinkhornLoop W K B r c nmbIters
    ⟨Q0, fun i => globalRowSum W K B Q0 i, 2⟩
  (st, fun w j i => st.Q w i j / localColSum W K B st.Q w j)

/-- Written from the spec's words (§4.4, step 3): rescale each row by
`r / (row_sum, globally reduced)` with `r` uniform at `1/K`. -/
def specRowNormalize (W K B : ℕ) (Q : Fin W → Fin K → Fin B → ℚ) :
    Fin W → Fin K → Fin B → ℚ :=
  fun w i j => Q w i j * ((1 / (K : ℚ)) / globalRowSum W K B Q i)

/-- Written from the spec's words (§4.4, step 3): rescale each column by
`c / (column_sum, computed locally — NOT globally reduced)` with `c`
uniform at `1/(world_size × local_columns)`. -/
def specColNormalize (W K B : ℕ) (Q : Fin W → Fin K → Fin B → ℚ) :
    Fin W → Fin K → Fin B → ℚ :=
  fun w i j => Q w i j * ((1 / ((W : ℚ) * (B : ℚ))) / localColSum W K B Q w j)

/-- Written from the spec's words (§4.4, step 1): globally normalize `Q` by
its total sum reduced across all workers. -/
def specTotalNormalize (W K B : ℕ) (Q : Fin W → Fin K → Fin B → ℚ) :
    Fin W → Fin K → Fin B → ℚ :=
  fun w i j => Q w i j / globalSum W K B Q

/-- One spec-side Sinkhorn iteration: row normalization (synchronized),
then column normalization (local). -/
def sinkhornIterStep (W K B : ℕ) (Q : Fin W → Fin K → Fin B → ℚ) :
    Fin W → Fin K → Fin B → ℚ :=
  specColNormalize W K B (specRowNormalize W K B Q)

/-- Concrete 1×1×1 input family used to exhibit the in-place mutation of
the solver's argument. -/
def qDemo : Fin 1 → Fin 1 → Fin 1 → ℚ := fun _ _ _ => 2

/-! ## Queue use in the training loop (`train`, lines 386–399)

When the queue is in use for assign-crop `i`, the scores of the stored
embeddings are concatenated **before** the current batch's scores
(`out = torch.cat((torch.mm(queue[i], prototypes.t()), out))`), the pooled
scores are exponentiated and transposed, the solver runs on the enlarged
matrix, and the result is sliced with `[-bs:]`.
-/

/-- The pooled score rows: queue-contributed rows first (indices `< m`),
then the current batch's `bs` rows. -/
def pooledScores (K m bs : ℕ) (queueScores : Fin m → Fin K → ℚ)
    (out : Fin bs → Fin K → ℚ) : Fin (m + bs) → Fin K → ℚ :=
  fun j k =>
    if h : (j : ℕ) < m then queueScores ⟨j, h⟩ k
    else out ⟨(j : ℕ) - m, by have hj := j.isLt; omega⟩ k

/-- `torch.exp(out / args.epsilon).t()` on the pooled scores, as the
single-worker input family of the solver; `expE` abstracts the entrywise
float exponential. -/
def pooledExpScores (K m bs : ℕ) (ε : ℚ) (expE : ℚ → ℚ)
    (queueScores : Fin m → Fin K → ℚ) (out : Fin bs → Fin K → ℚ) :
    Fin 1 → Fin K → Fin (m + bs) → ℚ :=
  fun _ k j => expE (pooledScores K m bs queueScores out j k / ε)

/-- Python slicing `rows[-n:]` on a list of rows (for `n = 0` Python's
`rows[-0:]` is `rows[0:]`, the whole list). -/
def sliceLastRows (n : ℕ) (rows : List (List ℚ)) : List (List ℚ) :=
  if n = 0 then rows else rows.drop (rows.length - n)

/-- `q = distributed_sinkhorn(torch.exp(out / args.epsilon).t(), iters)[-bs:]`
for one assign-crop on a single worker, with the solver output listed row
by row. -/
def assignmentRows (K m bs : ℕ) (ε : ℚ) (expE : ℚ → ℚ)
    (queueScores : Fin m → Fin K → ℚ) (out : Fin bs → Fin K → ℚ)
    (iters : ℕ) : List (List ℚ) :=
  let res := (distributedSinkhorn 1 K (m + bs)
    (pooledExpScores K m bs ε expE queueScores out) iters).2 0
  sliceLastRows bs
    ((List.finRange (m + bs)).map (fun j =>
      (List.finRange K).map (fun k => res j k)))

/-! ## Swapped-prediction loss (`train`, lines 380–407) -/

/-- `nn.Softmax(dim=1)` on one row of scaled scores; `E` abstracts the
entrywise float exponential. -/
def softmaxRow (K : ℕ) (E : ℚ → ℚ) (row : Fin K → ℚ) (k : Fin K) : ℚ :=
  E (row k) / ∑ k', E (row k')

/-- The loss accumulation of `train`: for each `(i, crop_id)` in
`enumerate(args.crops_for_assign)`, fold over
`np.delete(np.arange(np.sum(args.nmb_crops)), crop_id)`, subtracting
`torch.mean(torch.sum(q * torch.log(p), dim=1))` for each other crop `v`,
divide the sub-loss by `(C - 1)`, and finally divide by the number of
assign-crops.  `Lg` abstracts the entrywise float logarithm and `q` gives
the detached assignment of each assign-crop position. -/
def swavLoss (C bs K : ℕ) (T : ℚ) (E Lg : ℚ → ℚ) (cropsForAssign : List ℕ)
    (output : ℕ → Fin bs → Fin K → ℚ) (q : ℕ → Fin bs → Fin K → ℚ) : ℚ :=
  (cropsForAssign.enum.foldl
    (fun loss ic =>
      loss +
        (((List.range C).eraseIdx ic.2).foldl
          (fun subloss v =>
            subloss -
              (∑ i, ∑ k,
                q ic.1 i k * Lg (softmaxRow K E (fun k' => output v i k' / T) k)) /
                (bs : ℚ))
          0) / ((C : ℚ) - 1))
    0) / (cropsForAssign.length : ℚ)

/-! ## Learning-rate schedule (`main`, lines 265–269)

`warmup_lr_schedule = np.linspace(start_warmup, base_lr, ipe * warmup_epochs)`
followed by the cosine schedule
`final_lr + 0.5 * (base_lr - final_lr) * (1 + cos(pi * t / (ipe * (epochs - warmup_epochs))))`
for `t` in `np.arange(ipe * (epochs - warmup_epochs))`.  The float map
`t ↦ cos(π t)` is abstracted as a parameter `cospi`.
-/

/-- `np.linspace s e N` (endpoint included; `N = 1` gives `[s]`). -/
def linspace (s e : ℚ) (N : ℕ) : List ℚ :=
  (List.range N).map (fun (t : ℕ) =>
    if N ≤ 1 then s else s + (e - s) * (t : ℚ) / ((N : ℚ) - 1))

/-- The cosine-phase value at offset `t` of `T` total cosine iterations. -/
def cosineValue (finalLr baseLr : ℚ) (T : ℕ) (cospi : ℚ → ℚ) (t : ℕ) : ℚ :=
  finalLr + (1 / 2) * (baseLr - finalLr) * (1 + cospi ((t : ℚ) / (T : ℚ)))

/-- The precomputed per-iteration learning-rate schedule. -/
def lrSchedule (startWarmup baseLr finalLr : ℚ) (ipe warmupEpochs epochs : ℕ)
    (cospi : ℚ → ℚ) : List ℚ :=
  linspace startWarmup baseLr (ipe * warmupEpochs) ++
    (List.range (ipe * (epochs - warmupEpochs))).map
      (cosineValue finalLr baseLr (ipe * (epochs - warmupEpochs)) cospi)

/-! ## Prototype-gradient freezing (`train`, lines 409–421)

After backward, while `iteration < args.freeze_prototypes_niters`, the
gradient of every parameter whose name contains `"prototypes"` is set to
`None`; the optimizer step then skips parameters without a gradient and
applies the abstract update `upd` to the others.
-/

/-- A named parameter with its value and optional gradient. -/
structure TrainParam where
  name : String
  val : ℚ
  grad : Option ℚ
deriving DecidableEq

/-- Python's `"prototypes" in name`. -/
def nameMentionsPrototypes (s : String) : Bool :=
  decide (List.IsInfix "prototypes".toList s.toList)

/-- `if iteration < args.freeze_prototypes_niters: for name, p in
model.named_parameters(): if "prototypes" in name: p.grad = None`. -/
def cancelPrototypeGrads (iteration freezeNiters : ℕ) (ps : List TrainParam) :
    List TrainParam :=
  if iteration < freezeNiters then
    ps.map (fun p =>
      if nameMentionsPrototypes p.name then { p with grad := none } else p)
  else ps

/-- `optimizer.step()`: parameters whose gradient is `None` are skipped,
the others receive the abstract update `upd`. -/
def optimizerStep (upd : ℚ → ℚ → ℚ) (ps : List TrainParam) : List TrainParam :=
  ps.map (fun p =>
    match p.grad with
    | none => p
    | some g => { p with val := upd p.val g })

/-- Gradient cancellation followed by the optimizer step, as executed once
per training iteration. -/
def gradFreezeStep (upd : ℚ → ℚ → ℚ) (iteration freezeNiters : ℕ)
    (ps : List TrainParam) : List TrainParam :=
  optimizerStep upd (cancelPrototypeGrads iteration freezeNiters ps)

/-! ## Queue-in-use flag (`train`, lines 350–357 and 386–396)

`use_the_queue` is a local variable of `train`, initialized to `False` at
every call; at each `(iteration, assign-crop)` step the queue is used iff
`use_the_queue or not torch.all(queue[i, -1, :] == 0)`, and the flag is
set to the value of that condition; the queue is refilled unconditionally.
-/

/-- `torch.all(queue[i, -1, :] == 0)`: the last row of the queue is
entirely zero. -/
def lastRowIsZero (q : List (List ℚ)) : Bool :=
  (q.getLastD []).all (fun x => x == 0)

/-- One `(iteration, assign-crop)` step of the queue logic: the input is
the crop position `i` paired with the embedding batch written for it. -/
def assignCropStep (bs : ℕ) (st : Bool × List (List (List ℚ)))
    (inp : ℕ × List (List ℚ)) : Bool × List (List (List ℚ)) :=
  let cond := st.1 || !(lastRowIsZero (st.2.getD inp.1 []))
  (cond, st.2.set inp.1 (queueUpdate bs inp.2 (st.2.getD inp.1 [])))

/-- The sequence of values taken by the use-condition over the steps of
one epoch, starting from state `st`. -/
def epochQueueFlags (bs : ℕ) :
    Bool × List (List (List ℚ)) → List (ℕ × List (List ℚ)) → List Bool
  | _, [] => []
  | st, inp :: rest =>
    (assignCropStep bs st inp).1 ::
      epochQueueFlags bs (assignCropStep bs st inp) rest

/-- The per-step queue-usage flags of one call of `train`: the flag starts
at `False` because `use_the_queue = False` is a local of `train`. -/
def trainEpochFlags (bs : ℕ) (steps : List (ℕ × List (List ℚ)))
    (qs0 : List (List (List ℚ))) : List Bool :=
  epochQueueFlags bs (false, qs0) steps

theorem queueUpdate_length (bs : ℕ) (emb q : List (List ℚ))
    (hemb : emb.length = bs) (hbs : bs ≤ q.length) :
    (queueUpdate bs emb q).length = q.length := by
  simp [queueUpdate, hemb]
  omega

theorem queueWrites_eq_flatten_reverse_append (bs : ℕ) :
    ∀ (batches : List (List (List ℚ))) (q0 : List (List ℚ)),
      (∀ b ∈ batches, b.length = bs) →
      batches.length * bs ≤ q0.length →
      queueWrites bs batches q0 =
        batches.reverse.flatten ++ q0.take (q0.length - batches.length * bs) := by
  intro batches
  induction batches with
  | nil =>
      intro q0 _ _
      simp [queueWrites]
  | cons b rest ih =>
      intro q0 hlen hcap
      have hb : b.length = bs := hlen b (by simp)
      have hnb : rest.length * bs + bs ≤ q0.length := by
        have h := hcap
        rw [List.length_cons, Nat.succ_mul] at h
        exact h
      have hbs : bs ≤ q0.length := by omega
      have hq1len : (queueUpdate bs b q0).length = q0.length :=
        queueUpdate_length bs b q0 hb hbs
      have hstep : queueWrites bs (b :: rest) q0 =
          queueWrites bs rest (queueUpdate bs b q0) := by
        simp [queueWrites]
      rw [hstep, ih (queueUpdate bs b q0) (fun x hx => hlen x (by simp [hx])) (by
        rw [hq1len]; omega)]
      rw [hq1len]
      have htake : (queueUpdate bs b q0).take (q0.length - rest.length * bs) =
          b ++ q0.take (q0.length - (rest.length * bs + bs)) := by
        unfold queueUpdate
        rw [List.take_append_eq_append_take]
        rw [List.take_of_length_le (by rw [hb]; omega), List.take_take, hb]
        congr 2
        omega
      rw [htake]
      rw [List.reverse_cons, List.flatten_append, List.length_cons, List.append_assoc]
      have hidx : (rest.length + 1) * bs = rest.length * bs + bs := by
        rw [Nat.succ_mul]
      rw [hidx]
      simp

/-! ## Claim C1 -/

/-- Claim C1 is false on the code: with `queue_length = 5`,
`batch_size = 2`, `world_size = 1`, the queue length is not divisible by
`batch_size × world_size`, yet the startup computation does not fail — it
silently truncates the queue length from 5 down to 4. -/
theorem c1_queue_length_counterexample :
    ¬ (2 * 1 ∣ 5) ∧ adjustQueueLength 5 2 1 ≠ 5 ∧ adjustQueueLength 5 2 1 = 4 := by
  decide

/-- Claim C1 (amended): the startup never fails on a non-divisible
`queue_length`; instead it silently rounds the configured value down to
the greatest multiple of `batch_size × world_size` not exceeding it. -/
theorem c1_queue_length_truncation (ql bs ws : ℕ) (h : 0 < bs * ws) :
    (bs * ws) ∣ adjustQueueLength ql bs ws ∧
      adjustQueueLength ql bs ws ≤ ql ∧
      ql - adjustQueueLength ql bs ws < bs * ws := by
  unfold adjustQueueLength
  refine ⟨⟨ql / (bs * ws), ?_⟩, ?_, ?_⟩
  · have := Nat.div_add_mod ql (bs * ws)
    have h3 : ql % (bs * ws) ≤ ql := Nat.mod_le _ _
    omega
  · omega
  · have h2 := Nat.mod_lt ql h
    have h3 : ql % (bs * ws) ≤ ql := Nat.mod_le _ _
    omega

/-- Witness for the amended claim C1 at `queue_length = 5`,
`batch_size = 2`, `world_size = 1`. -/
theorem c1_queue_length_truncation_witness :
    (2 * 1) ∣ adjustQueueLength 5 2 1 ∧ adjustQueueLength 5 2 1 ≤ 5 ∧
      5 - adjustQueueLength 5 2 1 < 2 * 1 :=
  c1_queue_length_truncation 5 2 1 (by decide)

/-! ## Claim C2 -/

/-- Claim C2 is false on the code: with `bs = 1` and capacity 2, writing
the embeddings `[1]` then `[2]` leaves the queue as `[[2], [1]]` — the
newest embedding sits at index 0 — and not `[[1], [2]]` as the claimed
ordering (oldest at index 0, newest batch in the last slots) predicts. -/
theorem c2_queue_order_counterexample :
    queueWrites 1 [[[1]], [[2]]] [[0], [0]] = [[2], [1]] ∧
      ([[2], [1]] : List (List ℚ)) ≠ [[1], [2]] := by
  refine ⟨by rfl, by decide⟩

/-- Claim C2 (amended): after `capacity/batch_size` iterations of queue
writes, the queue contains exactly the last `capacity` embeddings
contributed, as the concatenation of the written batches in reverse
chronological order — the newest `batch_size` embeddings occupy slots
`[0, batch_size)` and the oldest retained batch occupies the last
`batch_size` slots; each per-iteration update drops the oldest
`batch_size` rows (the last ones), shifts the rest toward higher indices,
and writes the current batch's detached embeddings into the first
`batch_size` slots. -/
theorem c2_queue_reverse_chronological (bs : ℕ)
    (batches : List (List (List ℚ))) (q0 : List (List ℚ))
    (hlen : ∀ b ∈ batches, b.length = bs)
    (hcap : q0.length = batches.length * bs) :
    queueWrites bs batches q0 = batches.reverse.flatten := by
  have h := queueWrites_eq_flatten_reverse_append bs batches q0 hlen
    (le_of_eq hcap.symm)
  rw [h, hcap]
  simp

/-- Witness for the amended claim C2: two single-row batches into a
two-slot queue give the reverse-chronological concatenation. -/
theorem c2_queue_reverse_chronological_witness :
    queueWrites 1 [[[1]], [[2]]] [[0], [0]] =
      ([[[1]], [[2]]] : List (List (List ℚ))).reverse.flatten :=
  c2_queue_reverse_chronological 1 [[[1]], [[2]]] [[0], [0]]
    (by decide) (by decide)

/-! ## Sinkhorn refinement and positivity lemmas -/

theorem sinkhornLoop_uniform_spec (W K B : ℕ) :
    ∀ (n : ℕ) (Q : Fin W → Fin K → Fin B → ℚ) (cnt : ℕ),
      sinkhornLoop W K B (fun _ => 1 / (K : ℚ))
          (fun _ => 1 / ((W : ℚ) * (B : ℚ))) n
          ⟨Q, fun i => globalRowSum W K B Q i, cnt⟩ =
        ⟨(sinkhornIterStep W K B)^[n] Q,
          fun i => globalRowSum W K B ((sinkhornIterStep W K B)^[n] Q) i,
          cnt + n⟩ := by
  intro n
  induction n with
  | zero => intro Q cnt; rfl
  | succ n ih =>
      intro Q cnt
      have hrow : rowScaled W K B (fun _ => 1 / (K : ℚ))
          (fun i => globalRowSum W K B Q i) Q = specRowNormalize W K B Q := rfl
      have hstep : sinkhornLoop W K B (fun _ => 1 / (K : ℚ))
          (fun _ => 1 / ((W : ℚ) * (B : ℚ))) (n + 1)
          ⟨Q, fun i => globalRowSum W K B Q i, cnt⟩ =
        sinkhornLoop W K B (fun _ => 1 / (K : ℚ))
          (fun _ => 1 / ((W : ℚ) * (B : ℚ))) n
          ⟨sinkhornIterStep W K B Q,
            fun i => globalRowSum W K B (sinkhornIterStep W K B Q) i,
            cnt + 1⟩ := rfl
      rw [hstep, ih (sinkhornIterStep W K B Q) (cnt + 1)]
      rw [← Function.iterate_succ_apply]
      have hc : cnt + 1 + n = cnt + (n + 1) := by omega
      rw [hc]

theorem distributedSinkhorn_fst (W K B : ℕ)
    (Qs : Fin W → Fin K → Fin B → ℚ) (n : ℕ) :
    (distributedSinkhorn W K B Qs n).1 =
      ⟨(sinkhornIterStep W K B)^[n] (specTotalNormalize W K B Qs),
        fun i => globalRowSum W K B
          ((sinkhornIterStep W K B)^[n] (specTotalNormalize W K B Qs)) i,
        n + 2⟩ := by
  show sinkhornLoop W K B (fun _ => 1 / (K : ℚ))
      (fun _ => 1 / ((W : ℚ) * (B : ℚ))) n
      ⟨specTotalNormalize W K B Qs,
        fun i => globalRowSum W K B (specTotalNormalize W K B Qs) i, 2⟩ = _
  rw [sinkhornLoop_uniform_spec W K B n (specTotalNormalize W K B Qs) 2]
  have hc : 2 + n = n + 2 := by omega
  rw [hc]

theorem distributedSinkhorn_snd (W K B : ℕ)
    (Qs : Fin W → Fin K → Fin B → ℚ) (n : ℕ) :
    (distributedSinkhorn W K B Qs n).2 =
      fun w j i =>
        ((sinkhornIterStep W K B)^[n] (specTotalNormalize W K B Qs)) w i j /
          localColSum W K B
            ((sinkhornIterStep W K B)^[n] (specTotalNormalize W K B Qs)) w j := by
  show (fun w j i => (distributedSinkhorn W K B Qs n).1.Q w i j /
      localColSum W K B (distributedSinkhorn W K B Qs n).1.Q w j) = _
  rw [distributedSinkhorn_fst]

theorem globalSum_pos (W K B : ℕ) (Q : Fin W → Fin K → Fin B → ℚ)
    (h : ∀ w i j, 0 < Q w i j) (w : Fin W) (i : Fin K) (j : Fin B) :
    0 < globalSum W K B Q := by
  unfold globalSum
  refine Finset.sum_pos (fun w' _ => ?_) ⟨w, Finset.mem_univ w⟩
  refine Finset.sum_pos (fun i' _ => ?_) ⟨i, Finset.mem_univ i⟩
  exact Finset.sum_pos (fun j' _ => h w' i' j') ⟨j, Finset.mem_univ j⟩

theorem globalRowSum_pos (W K B : ℕ) (Q : Fin W → Fin K → Fin B → ℚ)
    (h : ∀ w i j, 0 < Q w i j) (w : Fin W) (i : Fin K) (j : Fin B) :
    0 < globalRowSum W K B Q i := by
  unfold globalRowSum
  refine Finset.sum_pos (fun w' _ => ?_) ⟨w, Finset.mem_univ w⟩
  exact Finset.sum_pos (fun j' _ => h w' i j') ⟨j, Finset.mem_univ j⟩

theorem localColSum_pos (W K B : ℕ) (Q : Fin W → Fin K → Fin B → ℚ)
    (h : ∀ w i j, 0 < Q w i j) (w : Fin W) (i : Fin K) (j : Fin B) :
    0 < localColSum W K B Q w j := by
  unfold localColSum
  exact Finset.sum_pos (fun i' _ => h w i' j) ⟨i, Finset.mem_univ i⟩

theorem specRowNormalize_pos (W K B : ℕ) (Q : Fin W → Fin K → Fin B → ℚ)
    (h : ∀ w i j, 0 < Q w i j) :
    ∀ w i j, 0 < specRowNormalize W K B Q w i j := by
  intro w i j
  unfold specRowNormalize
  refine mul_pos (h w i j) (div_pos (div_pos one_pos ?_)
    (globalRowSum_pos W K B Q h w i j))
  exact_mod_cast lt_of_le_of_lt (Nat.zero_le (i : ℕ)) i.isLt

theorem specColNormalize_pos (W K B : ℕ) (Q : Fin W → Fin K → Fin B → ℚ)
    (h : ∀ w i j, 0 < Q w i j) :
    ∀ w i j, 0 < specColNormalize W K B Q w i j := by
  intro w i j
  unfold specColNormalize
  refine mul_pos (h w i j) (div_pos (div_pos one_pos ?_)
    (localColSum_pos W K B Q h w i j))
  have hW : (0 : ℚ) < (W : ℚ) := by
    exact_mod_cast lt_of_le_of_lt (Nat.zero_le (w : ℕ)) w.isLt
  have hB : (0 : ℚ) < (B : ℚ) := by
    exact_mod_cast lt_of_le_of_lt (Nat.zero_le (j : ℕ)) j.isLt
  exact mul_pos hW hB

theorem specTotalNormalize_pos (W K B : ℕ) (Q : Fin W → Fin K → Fin B → ℚ)
    (h : ∀ w i j, 0 < Q w i j) :
    ∀ w i j, 0 < specTotalNormalize W K B Q w i j := by
  intro w i j
  exact div_pos (h w i j) (globalSum_pos W K B Q h w i j)

theorem sinkhornIterate_pos (W K B : ℕ) (Q : Fin W → Fin K → Fin B → ℚ)
    (h : ∀ w i j, 0 < Q w i j) :
    ∀ n w i j, 0 < ((sinkhornIterStep W K B)^[n] Q) w i j := by
  intro n
  induction n with
  | zero => simpa using h
  | succ n ih =>
      intro w i j
      rw [Function.iterate_succ_apply']
      exact specColNormalize_pos W K B _ (specRowNormalize_pos W K B _ ih) w i j

/-! ## Claims C3, C4, C9 -/

/-- Claim C3: for every strictly positive input matrix on a single worker
(`world_size = 1`, so the collective reductions are identities), every row
of the solver's returned matrix — the assignment of one pooled embedding
over all prototypes, produced by the final division of `Q` by its column
sums followed by transposition — sums to exactly 1. -/
theorem c3_sinkhorn_rows_sum_one (K B n : ℕ) (Q : Fin K → Fin B → ℚ)
    (hK : 0 < K) (hpos : ∀ i j, 0 < Q i j) (j : Fin B) :
    ∑ i, (distributedSinkhorn 1 K B (fun _ => Q) n).2 0 j i = 1 := by
  rw [distributedSinkhorn_snd]
  have hFpos : ∀ w i j', 0 <
      ((sinkhornIterStep 1 K B)^[n]
        (specTotalNormalize 1 K B (fun _ => Q))) w i j' :=
    sinkhornIterate_pos 1 K B _
      (specTotalNormalize_pos 1 K B _ (fun _ i j' => hpos i j')) n
  have hcs : 0 < localColSum 1 K B
      ((sinkhornIterStep 1 K B)^[n]
        (specTotalNormalize 1 K B (fun _ => Q))) 0 j :=
    localColSum_pos 1 K B _ hFpos 0 ⟨0, hK⟩ j
  rw [← Finset.sum_div]
  exact div_self (ne_of_gt hcs)

/-- Witness for claim C3 on the all-ones 1×1 matrix with 3 iterations. -/
theorem c3_sinkhorn_rows_sum_one_witness :
    ∑ i, (distributedSinkhorn 1 1 1 (fun _ _ _ => (1 : ℚ)) 3).2 0 0 i = 1 :=
  c3_sinkhorn_rows_sum_one 1 1 3 (fun _ _ => 1) (by decide)
    (fun i j => by norm_num) 0

/-- Claim C4: the solver first normalizes `Q` by its globally reduced
total sum (`specTotalNormalize`), then performs exactly `nmb_iters`
iterations, each rescaling every row by `r` (uniform `1/K`) over the
globally reduced row sum (`specRowNormalize`) and then every column by
`c` (uniform `1/(world_size × local_columns)`) over the locally computed,
never reduced, column sum (`specColNormalize`); the returned matrix is the
iterate divided by its local column sums and transposed, and every call
executes exactly `nmb_iters + 2` collective reductions, independent of the
input and of the worker count. -/
theorem c4_sinkhorn_asymmetric_structure (W K B : ℕ)
    (Qs : Fin W → Fin K → Fin B → ℚ) (n : ℕ) :
    (distributedSinkhorn W K B Qs n).2 =
      (fun w j i =>
        ((sinkhornIterStep W K B)^[n] (specTotalNormalize W K B Qs)) w i j /
          localColSum W K B
            ((sinkhornIterStep W K B)^[n] (specTotalNormalize W K B Qs)) w j) ∧
    (distributedSinkhorn W K B Qs n).1.reduceCount = n + 2 := by
  rw [distributedSinkhorn_snd, distributedSinkhorn_fst]
  exact ⟨rfl, rfl⟩

/-- Claim C9: the solver mutates its argument in place — after the call
the caller's buffer holds the matrix left by the last in-place row and
column rescaling (the `n`-th iterate of the normalization steps applied
to the totally normalized input, before the final column normalization
that produces the fresh returned tensor), and, as the 1×1×1 input with
value 2 shows, this buffer in general no longer holds the original
exponentiated scores. -/
theorem c9_sinkhorn_inplace_mutation :
    (∀ (W K B : ℕ) (Qs : Fin W → Fin K → Fin B → ℚ) (n : ℕ),
      (distributedSinkhorn W K B Qs n).1.Q =
        (sinkhornIterStep W K B)^[n] (specTotalNormalize W K B Qs)) ∧
    (distributedSinkhorn 1 1 1 qDemo 1).1.Q 0 0 0 ≠ qDemo 0 0 0 := by
  constructor
  · intro W K B Qs n
    rw [distributedSinkhorn_fst]
  · have h1 : (distributedSinkhorn 1 1 1 qDemo 1).1.Q =
        (sinkhornIterStep 1 1 1)^[1] (specTotalNormalize 1 1 1 qDemo) := by
      rw [distributedSinkhorn_fst]
    rw [h1, Function.iterate_one]
    simp [sinkhornIterStep, specColNormalize, specRowNormalize,
      specTotalNormalize, globalSum, globalRowSum, localColSum, qDemo,
      Fin.sum_univ_one]

/-! ## Claim C5 -/

theorem getD_map_finRange {α : Type} (N : ℕ) (f : Fin N → α) (d : α) (i : ℕ)
    (hi : i < N) : ((List.finRange N).map f).getD i d = f ⟨i, hi⟩ := by
  have hlen : i < ((List.finRange N).map f).length := by simp [hi]
  rw [List.getD_eq_getElem?_getD, List.getElem?_eq_getElem hlen]
  simp [List.getElem_map, List.getElem_finRange]

/-- Claim C5: when the queue is used for an assign-crop, the queue-derived
score rows occupy the pooled positions before the current batch's rows
(conjuncts 3 and 4), and the assignment returned to the loss — the
`[-bs:]` slice of the solver output — has exactly `batch_size` rows
(conjunct 1), the row of index `jv` being the solver's output at pooled
column `m + jv`, i.e. the column of the current batch's example `jv`
(conjunct 2); `m = 0` is the no-queue case, so the returned assignment
has exactly `batch_size` rows whether or not queue columns were pooled. -/
theorem c5_assignment_restricted_to_batch (K m bs : ℕ) (ε : ℚ)
    (expE : ℚ → ℚ) (queueScores : Fin m → Fin K → ℚ)
    (out : Fin bs → Fin K → ℚ) (iters : ℕ) (hbs : 0 < bs) :
    (assignmentRows K m bs ε expE queueScores out iters).length = bs ∧
    (∀ (jv : ℕ) (hj : jv < bs) (k : Fin K),
      ((assignmentRows K m bs ε expE queueScores out iters).getD jv []).getD
          k 0 =
        (distributedSinkhorn 1 K (m + bs)
            (pooledExpScores K m bs ε expE queueScores out) iters).2 0
          ⟨m + jv, by omega⟩ k) ∧
    (∀ (jv : ℕ) (hj : jv < bs) (k : Fin K),
      pooledScores K m bs queueScores out ⟨m + jv, by omega⟩ k =
        out ⟨jv, hj⟩ k) ∧
    (∀ (jv : ℕ) (hj : jv < m) (k : Fin K),
      pooledScores K m bs queueScores out ⟨jv, by omega⟩ k =
        queueScores ⟨jv, hj⟩ k) := by
  have hrows : assignmentRows K m bs ε expE queueScores out iters =
      ((List.finRange (m + bs)).map (fun j =>
        (List.finRange K).map (fun k =>
          (distributedSinkhorn 1 K (m + bs)
            (pooledExpScores K m bs ε expE queueScores out) iters).2 0
            j k))).drop m := by
    unfold assignmentRows sliceLastRows
    rw [if_neg (by omega)]
    congr 1
    simp
  refine ⟨?_, ?_, ?_, ?_⟩
  · rw [hrows]
    simp
  · intro jv hj k
    have houter : ∀ (L : List (List ℚ)),
        (L.drop m).getD jv [] = L.getD (m + jv) [] := by
      intro L
      rw [List.getD_eq_getElem?_getD, List.getD_eq_getElem?_getD,
        List.getElem?_drop]
    rw [hrows, houter]
    rw [getD_map_finRange (m + bs) _ [] (m + jv) (by omega)]
    rw [getD_map_finRange K _ 0 (k : ℕ) k.isLt]
  · intro jv hj k
    unfold pooledScores
    rw [dif_neg (show ¬ m + jv < m by omega)]
    exact congrFun (congrArg out (Fin.ext (show m + jv - m = jv by omega))) k
  · intro jv hj k
    unfold pooledScores
    rw [dif_pos (show jv < m from hj)]

/-- Witness for claim C5: a one-row queue pooled with a one-example batch
still yields a single returned assignment row. -/
theorem c5_assignment_restricted_to_batch_witness :
    (assignmentRows 1 1 1 1 id (fun _ _ => 1) (fun _ _ => 1) 1).length = 1 :=
  (c5_assignment_restricted_to_batch 1 1 1 1 id (fun _ _ => 1)
    (fun _ _ => 1) 1 (by decide)).1

/-! ## Claim C6 -/

theorem foldl_add_map {α : Type} (f : α → ℚ) :
    ∀ (l : List α) (a : ℚ),
      l.foldl (fun acc x => acc + f x) a = a + (l.map f).sum := by
  intro l
  induction l with
  | nil => intro a; simp
  | cons x xs ih =>
      intro a
      simp [List.foldl_cons, ih]
      ring

theorem foldl_sub_map {α : Type} (f : α → ℚ) :
    ∀ (l : List α) (a : ℚ),
      l.foldl (fun acc x => acc - f x) a = a - (l.map f).sum := by
  intro l
  induction l with
  | nil => intro a; simp
  | cons x xs ih =>
      intro a
      simp [List.foldl_cons, ih]
      ring

theorem sum_map_range_eq (f : ℕ → ℚ) :
    ∀ k : ℕ, ((List.range k).map f).sum = ∑ v ∈ Finset.range k, f v := by
  intro k
  induction k with
  | zero => simp
  | succ k ih => rw [List.range_succ, Finset.sum_range_succ]; simp [ih]

theorem sum_map_eraseIdx_range (f : ℕ → ℚ) :
    ∀ (C k : ℕ), k < C →
      (((List.range C).eraseIdx k).map f).sum =
        (∑ v ∈ Finset.range C, f v) - f k := by
  intro C
  induction C with
  | zero => intro k hk; omega
  | succ C ih =>
      intro k hk
      rw [List.range_succ]
      by_cases hkC : k < C
      · rw [List.eraseIdx_append_of_lt_length (by simpa using hkC)]
        rw [List.map_append, List.sum_append, ih k hkC,
          Finset.sum_range_succ]
        simp
        ring
      · have hk2 : k = C := by omega
        subst hk2
        rw [List.eraseIdx_append_of_length_le (by simp)]
        simp [Finset.sum_range_succ, sum_map_range_eq]

/-- Claim C6: the training loss computed by the fold of `train` equals the
average over the assign-crops of sub-losses, where the sub-loss of the
assign-crop at position `ic.1` with crop id `ic.2` is the sum, over every
crop `v` other than the assign-crop, of the negative mean over images of
`Σ_k Q_ik · log softmax(scores_v / temperature)_ik`, divided by the total
number of crops minus one. -/
theorem c6_swapped_prediction_loss (C bs K : ℕ) (T : ℚ) (E Lg : ℚ → ℚ)
    (cropsForAssign : List ℕ) (output q : ℕ → Fin bs → Fin K → ℚ)
    (hC : ∀ c ∈ cropsForAssign, c < C) :
    swavLoss C bs K T E Lg cropsForAssign output q =
      ((cropsForAssign.enum.map (fun ic =>
          (∑ v ∈ (Finset.range C).erase ic.2,
            -((∑ i, ∑ k,
                q ic.1 i k *
                  Lg (softmaxRow K E (fun k' => output v i k' / T) k)) /
              (bs : ℚ))) / ((C : ℚ) - 1))).sum) /
        (cropsForAssign.length : ℚ) := by
  unfold swavLoss
  rw [foldl_add_map (fun ic : ℕ × ℕ =>
    (((List.range C).eraseIdx ic.2).foldl
      (fun subloss v =>
        subloss -
          (∑ i, ∑ k,
            q ic.1 i k * Lg (softmaxRow K E (fun k' => output v i k' / T) k)) /
            (bs : ℚ))
      0) / ((C : ℚ) - 1)) cropsForAssign.enum 0]
  rw [zero_add]
  congr 1
  refine congrArg List.sum (List.map_congr_left ?_)
  intro ic hic
  have hmem : ic.2 ∈ cropsForAssign := by
    have h2 := List.mem_map_of_mem Prod.snd hic
    rwa [List.enum_map_snd] at h2
  have hlt := hC ic.2 hmem
  rw [foldl_sub_map (fun v =>
    (∑ i, ∑ k,
      q ic.1 i k * Lg (softmaxRow K E (fun k' => output v i k' / T) k)) /
      (bs : ℚ)) (((List.range C).eraseIdx ic.2)) 0]
  rw [zero_sub, sum_map_eraseIdx_range _ C ic.2 hlt]
  rw [Finset.sum_neg_distrib,
    Finset.sum_erase_eq_sub (Finset.mem_range.mpr hlt)]

/-- Witness for claim C6: one assign-crop out of two total crops on a
single image with a single prototype gives loss `-1`. -/
theorem c6_swapped_prediction_loss_witness :
    swavLoss 2 1 1 1 id id [0] (fun _ _ _ => 1) (fun _ _ _ => 1) = -1 := by
  rw [c6_swapped_prediction_loss 2 1 1 1 id id [0] (fun _ _ _ => 1)
    (fun _ _ _ => 1) (by decide)]
  simp [List.enum, softmaxRow, Fin.sum_univ_one]
  norm_num [Finset.sum_erase_eq_sub, Finset.sum_range_succ]

/-! ## Claim C7 -/

theorem getD_map_range {α : Type} (N : ℕ) (g : ℕ → α) (d : α) (i : ℕ)
    (hi : i < N) : ((List.range N).map g).getD i d = g i := by
  have hlen : i < ((List.range N).map g).length := by simp [hi]
  rw [List.getD_eq_getElem?_getD, List.getElem?_eq_getElem hlen]
  simp

/-- Claim C7: the learning-rate schedule has length `ipe × epochs`; its
first value is `start_warmup`; its value at index `warmup_epochs × ipe`
is `base_lr`; its final value is the cosine value at the last offset,
which deviates from `final_lr` by exactly the non-negative cosine tail —
within any tolerance that dominates that tail; and it is monotonically
increasing over the warmup segment and monotonically decreasing over the
cosine segment. -/
theorem c7_lr_schedule (startWarmup baseLr finalLr : ℚ)
    (ipe warmupEpochs epochs : ℕ) (cospi : ℚ → ℚ)
    (hipe : 0 < ipe) (hw : 0 < warmupEpochs) (hwe : warmupEpochs < epochs)
    (hsb : startWarmup ≤ baseLr) (hfb : finalLr ≤ baseLr)
    (hc0 : cospi 0 = 1) (hc1 : cospi 1 = -1)
    (hanti : ∀ x y : ℚ, 0 ≤ x → x ≤ y → y ≤ 1 → cospi y ≤ cospi x) :
    (lrSchedule startWarmup baseLr finalLr ipe warmupEpochs epochs
        cospi).length = ipe * epochs ∧
    (lrSchedule startWarmup baseLr finalLr ipe warmupEpochs epochs
        cospi).getD 0 0 = startWarmup ∧
    (lrSchedule startWarmup baseLr finalLr ipe warmupEpochs epochs
        cospi).getD (ipe * warmupEpochs) 0 = baseLr ∧
    ((lrSchedule startWarmup baseLr finalLr ipe warmupEpochs epochs
        cospi).getD (ipe * epochs - 1) 0 =
      cosineValue finalLr baseLr (ipe * (epochs - warmupEpochs)) cospi
        (ipe * (epochs - warmupEpochs) - 1) ∧
      ∀ δ : ℚ,
        cosineValue finalLr baseLr (ipe * (epochs - warmupEpochs)) cospi
            (ipe * (epochs - warmupEpochs) - 1) - finalLr ≤ δ →
        |(lrSchedule startWarmup baseLr finalLr ipe warmupEpochs epochs
            cospi).getD (ipe * epochs - 1) 0 - finalLr| ≤ δ) ∧
    (∀ a b : ℕ, a ≤ b → b < ipe * warmupEpochs →
      (lrSchedule startWarmup baseLr finalLr ipe warmupEpochs epochs
          cospi).getD a 0 ≤
        (lrSchedule startWarmup baseLr finalLr ipe warmupEpochs epochs
            cospi).getD b 0) ∧
    (∀ a b : ℕ, a ≤ b → b < ipe * (epochs - warmupEpochs) →
      (lrSchedule startWarmup baseLr finalLr ipe warmupEpochs epochs
          cospi).getD (ipe * warmupEpochs + b) 0 ≤
        (lrSchedule startWarmup baseLr finalLr ipe warmupEpochs epochs
            cospi).getD (ipe * warmupEpochs + a) 0) := by
  have hTw : 0 < ipe * warmupEpochs := Nat.mul_pos hipe hw
  have hTc : 0 < ipe * (epochs - warmupEpochs) :=
    Nat.mul_pos hipe (by omega)
  have hTotal : ipe * warmupEpochs + ipe * (epochs - warmupEpochs) =
      ipe * epochs := by
    rw [← Nat.mul_add]
    congr 1
    omega
  have hlenWarm : (linspace startWarmup baseLr (ipe * warmupEpochs)).length =
      ipe * warmupEpochs := by
    unfold linspace
    rw [List.length_map, List.length_range]
  have hwarmVal : ∀ t : ℕ, t < ipe * warmupEpochs →
      (lrSchedule startWarmup baseLr finalLr ipe warmupEpochs epochs
          cospi).getD t 0 =
        (if ipe * warmupEpochs ≤ 1 then startWarmup
          else startWarmup + (baseLr - startWarmup) * (t : ℚ) /
            ((ipe * warmupEpochs : ℕ) - 1 : ℚ)) := by
    intro t ht
    unfold lrSchedule
    rw [List.getD_append]
    · unfold linspace
      rw [getD_map_range (ipe * warmupEpochs) _ 0 t ht]
    · rw [hlenWarm]; exact ht
  have hcosVal : ∀ t : ℕ, t < ipe * (epochs - warmupEpochs) →
      (lrSchedule startWarmup baseLr finalLr ipe warmupEpochs epochs
          cospi).getD (ipe * warmupEpochs + t) 0 =
        cosineValue finalLr baseLr (ipe * (epochs - warmupEpochs)) cospi t := by
    intro t ht
    unfold lrSchedule
    rw [List.getD_append_right]
    · rw [hlenWarm]
      have hidx : ipe * warmupEpochs + t - ipe * warmupEpochs = t := by omega
      rw [hidx, getD_map_range (ipe * (epochs - warmupEpochs)) _ 0 t ht]
    · rw [hlenWarm]; omega
  refine ⟨?_, ?_, ?_, ⟨?_, ?_⟩, ?_, ?_⟩
  · unfold lrSchedule
    rw [List.length_append, hlenWarm, List.length_map, List.length_range]
    exact hTotal
  · rw [hwarmVal 0 hTw]
    by_cases h1 : ipe * warmupEpochs ≤ 1 <;> simp [h1]
  · have h := hcosVal 0 hTc
    rw [Nat.add_zero] at h
    rw [h]
    unfold cosineValue
    rw [Nat.cast_zero, zero_div, hc0]
    ring
  · have hidx : ipe * epochs - 1 =
        ipe * warmupEpochs + (ipe * (epochs - warmupEpochs) - 1) := by omega
    rw [hidx, hcosVal (ipe * (epochs - warmupEpochs) - 1) (by omega)]
  · intro δ hδ
    have hidx : ipe * epochs - 1 =
        ipe * warmupEpochs + (ipe * (epochs - warmupEpochs) - 1) := by omega
    rw [hidx, hcosVal (ipe * (epochs - warmupEpochs) - 1) (by omega)]
    have hx0 : (0 : ℚ) ≤
        ((ipe * (epochs - warmupEpochs) - 1 : ℕ) : ℚ) /
          ((ipe * (epochs - warmupEpochs) : ℕ) : ℚ) :=
      div_nonneg (Nat.cast_nonneg _) (Nat.cast_nonneg _)
    have hx1 : ((ipe * (epochs - warmupEpochs) - 1 : ℕ) : ℚ) /
        ((ipe * (epochs - warmupEpochs) : ℕ) : ℚ) ≤ 1 := by
      rw [div_le_one (by exact_mod_cast hTc)]
      exact_mod_cast Nat.sub_le _ _
    have hcbound : (-1 : ℚ) ≤ cospi
        (((ipe * (epochs - warmupEpochs) - 1 : ℕ) : ℚ) /
          ((ipe * (epochs - warmupEpochs) : ℕ) : ℚ)) := by
      rw [← hc1]
      exact hanti _ 1 hx0 hx1 (le_refl 1)
    have hdev : (0 : ℚ) ≤
        cosineValue finalLr baseLr (ipe * (epochs - warmupEpochs)) cospi
          (ipe * (epochs - warmupEpochs) - 1) - finalLr := by
      unfold cosineValue
      have h2 : (0 : ℚ) ≤ (1 / 2) * (baseLr - finalLr) :=
        mul_nonneg (by norm_num) (sub_nonneg.mpr hfb)
      nlinarith
    rw [abs_of_nonneg hdev]
    exact hδ
  · intro a b hab hb
    rw [hwarmVal a (by omega), hwarmVal b hb]
    by_cases h1 : ipe * warmupEpochs ≤ 1
    · simp [h1]
    · rw [if_neg h1, if_neg h1]
      have hden : (0 : ℚ) < ((ipe * warmupEpochs : ℕ) : ℚ) - 1 := by
        have : (2 : ℕ) ≤ ipe * warmupEpochs := by omega
        have h2 : (2 : ℚ) ≤ ((ipe * warmupEpochs : ℕ) : ℚ) := by
          exact_mod_cast this
        linarith
      have hnum : (0 : ℚ) ≤ baseLr - startWarmup := sub_nonneg.mpr hsb
      have hcast : (a : ℚ) ≤ (b : ℚ) := by exact_mod_cast hab
      have hstep : (baseLr - startWarmup) * (a : ℚ) /
          ((ipe * warmupEpochs : ℕ) - 1 : ℚ) ≤
        (baseLr - startWarmup) * (b : ℚ) /
          ((ipe * warmupEpochs : ℕ) - 1 : ℚ) := by
        apply div_le_div_of_nonneg_right ?_ (le_of_lt hden)
        exact mul_le_mul_of_nonneg_left hcast hnum
      linarith
  · intro a b hab hb
    rw [hcosVal a (by omega), hcosVal b hb]
    unfold cosineValue
    have hTcQ : (0 : ℚ) < ((ipe * (epochs - warmupEpochs) : ℕ) : ℚ) := by
      exact_mod_cast hTc
    have hxa0 : (0 : ℚ) ≤ (a : ℚ) / ((ipe * (epochs - warmupEpochs) : ℕ) : ℚ) :=
      div_nonneg (Nat.cast_nonneg _) (Nat.cast_nonneg _)
    have hxab : (a : ℚ) / ((ipe * (epochs - warmupEpochs) : ℕ) : ℚ) ≤
        (b : ℚ) / ((ipe * (epochs - warmupEpochs) : ℕ) : ℚ) := by
      apply div_le_div_of_nonneg_right ?_ (le_of_lt hTcQ)
      exact_mod_cast hab
    have hxb1 : (b : ℚ) / ((ipe * (epochs - warmupEpochs) : ℕ) : ℚ) ≤ 1 := by
      rw [div_le_one hTcQ]
      exact_mod_cast le_of_lt hb
    have hmono := hanti _ _ hxa0 hxab hxb1
    have h2 : (0 : ℚ) ≤ (1 / 2) * (baseLr - finalLr) :=
      mul_nonneg (by norm_num) (sub_nonneg.mpr hfb)
    nlinarith

/-- Witness for claim C7 with one iteration per epoch, one warmup epoch,
three total epochs and the piecewise-linear stand-in `t ↦ 1 - 2t` for
`cos(π t)`. -/
theorem c7_lr_schedule_witness :
    (lrSchedule 0 1 0 1 1 3 (fun t => 1 - 2 * t)).length = 1 * 3 :=
  (c7_lr_schedule 0 1 0 1 1 3 (fun t => 1 - 2 * t) (by decide) (by decide)
    (by decide) (by norm_num) (by norm_num) (by norm_num) (by norm_num)
    (fun x y hx hxy hy => by simp; linarith)).1

/-! ## Claim C8 -/

theorem getD_map_lt {α β : Type} (f : α → β) (l : List α) (i : ℕ)
    (hi : i < l.length) (d : β) (d' : α) :
    (l.map f).getD i d = f (l.getD i d') := by
  rw [List.getD_eq_getElem?_getD, List.getElem?_map,
    List.getElem?_eq_getElem hi, List.getD_eq_getElem?_getD,
    List.getElem?_eq_getElem hi]
  rfl

/-- Claim C8: for an iteration strictly below `freeze_prototypes_niters`,
every parameter whose name contains `"prototypes"` has its gradient
cleared before the optimizer step, so its value is identical before and
after the step, while every other parameter with a gradient receives the
ordinary update; for an iteration at or above the threshold, a parameter
with a non-zero gradient changes whenever the optimizer's update moves a
parameter with non-zero gradient. -/
theorem c8_prototype_freezing (upd : ℚ → ℚ → ℚ)
    (iteration freezeNiters : ℕ) (ps : List TrainParam) (d : TrainParam)
    (i : ℕ) (hi : i < ps.length) :
    (iteration < freezeNiters →
      nameMentionsPrototypes ((ps.getD i d).name) = true →
      ((gradFreezeStep upd iteration freezeNiters ps).getD i d).val =
        (ps.getD i d).val) ∧
    (iteration < freezeNiters →
      nameMentionsPrototypes ((ps.getD i d).name) = false →
      ∀ g, (ps.getD i d).grad = some g →
        ((gradFreezeStep upd iteration freezeNiters ps).getD i d).val =
          upd (ps.getD i d).val g) ∧
    (freezeNiters ≤ iteration →
      ∀ g, (ps.getD i d).grad = some g →
        (∀ x y : ℚ, y ≠ 0 → upd x y ≠ x) → g ≠ 0 →
        ((gradFreezeStep upd iteration freezeNiters ps).getD i d).val ≠
          (ps.getD i d).val) := by
  refine ⟨?_, ?_, ?_⟩
  · intro hit hproto
    unfold gradFreezeStep cancelPrototypeGrads optimizerStep
    rw [if_pos hit]
    rw [getD_map_lt _ _ i (by simpa using hi) d d,
      getD_map_lt _ ps i hi d d]
    rw [if_pos hproto]
  · intro hit hproto g hg
    unfold gradFreezeStep cancelPrototypeGrads optimizerStep
    rw [if_pos hit]
    rw [getD_map_lt _ _ i (by simpa using hi) d d,
      getD_map_lt _ ps i hi d d]
    rw [if_neg (by rw [hproto]; exact Bool.false_ne_true)]
    rw [hg]
  · intro hge g hg hupd hgne
    unfold gradFreezeStep cancelPrototypeGrads optimizerStep
    rw [if_neg (by omega)]
    rw [getD_map_lt _ ps i hi d d]
    rw [hg]
    exact hupd _ g hgne

/-- Witness for claim C8: with the SGD-style update `x - g`, iteration 0
and freeze threshold 1, the prototype parameter keeps its value. -/
theorem c8_prototype_freezing_witness :
    ((gradFreezeStep (fun x g => x - g) 0 1
        [⟨"module.prototypes.weight", 1, some 1⟩]).getD 0
        ⟨"", 0, none⟩).val =
      (([⟨"module.prototypes.weight", 1, some 1⟩] :
          List TrainParam).getD 0 ⟨"", 0, none⟩).val :=
  (c8_prototype_freezing (fun x g => x - g) 0 1
    [⟨"module.prototypes.weight", 1, some 1⟩] ⟨"", 0, none⟩ 0
    (by decide)).1 (by decide) (by decide)

/-! ## Claim C10 -/

theorem epochQueueFlags_all_true (bs : ℕ) :
    ∀ (steps : List (ℕ × List (List ℚ))) (st : Bool × List (List (List ℚ))),
      st.1 = true → ∀ f ∈ epochQueueFlags bs st steps, f = true := by
  intro steps
  induction steps with
  | nil => intro st h f hf; simp [epochQueueFlags] at hf
  | cons s rest ih =>
      intro st h f hf
      rw [epochQueueFlags] at hf
      rcases List.mem_cons.mp hf with h1 | h1
      · rw [h1]
        simp [assignCropStep, h]
      · exact ih (assignCropStep bs st s) (by simp [assignCropStep, h]) f h1

theorem epochQueueFlags_length (bs : ℕ) :
    ∀ (steps : List (ℕ × List (List ℚ))) (st : Bool × List (List (List ℚ))),
      (epochQueueFlags bs st steps).length = steps.length := by
  intro steps
  induction steps with
  | nil => intro st; rfl
  | cons s rest ih => intro st; simp [epochQueueFlags, ih]

theorem epochQueueFlags_mono (bs : ℕ) :
    ∀ (steps : List (ℕ × List (List ℚ))) (st : Bool × List (List (List ℚ)))
      (a b : ℕ), a ≤ b → b < steps.length →
      (epochQueueFlags bs st steps).getD a false = true →
      (epochQueueFlags bs st steps).getD b false = true := by
  intro steps
  induction steps with
  | nil => intro st a b hab hb htrue; simp at hb
  | cons s rest ih =>
      intro st a b hab hb htrue
      cases a with
      | zero =>
          cases b with
          | zero => exact htrue
          | succ b' =>
              have hc : (assignCropStep bs st s).1 = true := by
                simpa [epochQueueFlags] using htrue
              have hb' : b' < rest.length := by
                simp [List.length_cons] at hb
                omega
              have hlen : b' <
                  (epochQueueFlags bs (assignCropStep bs st s) rest).length := by
                rw [epochQueueFlags_length]
                exact hb'
              have hmem : (epochQueueFlags bs (assignCropStep bs st s)
                    rest).getD b' false ∈
                  epochQueueFlags bs (assignCropStep bs st s) rest := by
                rw [List.getD_eq_getElem?_getD, List.getElem?_eq_getElem hlen]
                exact List.getElem_mem hlen
              have hall := epochQueueFlags_all_true bs rest
                (assignCropStep bs st s) hc _ hmem
              rw [epochQueueFlags, List.getD_cons_succ]
              exact hall
      | succ a' =>
          cases b with
          | zero => omega
          | succ b' =>
              have hb' : b' < rest.length := by
                simp [List.length_cons] at hb
                omega
              rw [epochQueueFlags, List.getD_cons_succ] at htrue
              rw [epochQueueFlags, List.getD_cons_succ]
              exact ih (assignCropStep bs st s) a' b' (by omega) hb' htrue

/-- Claim C10: the queue-in-use flag is a local of `train` initialized to
`False`, so at the start of every epoch queue usage is re-detected solely
by the all-zero test on the queue's last slot (first conjunct: the first
step's usage equals the negated test on the initial queue state, whatever
happened before), and once the condition holds at some step it holds at
every later step of that epoch, across iterations and assign-crops
(second conjunct: the per-step usage flags are monotone). -/
theorem c10_queue_use_flag (bs : ℕ) (steps : List (ℕ × List (List ℚ)))
    (qs0 : List (List (List ℚ))) :
    (∀ (i0 : ℕ) (e0 : List (List ℚ)) (rest : List (ℕ × List (List ℚ))),
      steps = (i0, e0) :: rest →
      (trainEpochFlags bs steps qs0).head? =
        some (!(lastRowIsZero (qs0.getD i0 [])))) ∧
    (∀ a b : ℕ, a ≤ b → b < steps.length →
      (trainEpochFlags bs steps qs0).getD a false = true →
      (trainEpochFlags bs steps qs0).getD b false = true) := by
  constructor
  · intro i0 e0 rest hsteps
    rw [hsteps]
    simp [trainEpochFlags, epochQueueFlags, assignCropStep]
  · intro a b hab hb h
    exact epochQueueFlags_mono bs steps (false, qs0) a b hab hb h

/-- Witness for claim C10: a queue whose last slot is non-zero makes the
flag true at the first step, and it stays true at the second. -/
theorem c10_queue_use_flag_witness :
    (trainEpochFlags 1 [(0, [[5]]), (0, [[6]])] [[[1]]]).getD 1 false =
      true :=
  (c10_queue_use_flag 1 [(0, [[5]]), (0, [[6]])] [[[1]]]).2 0 1
    (by decide) (by decide) (by decide)

end Swav
